import Mathlib

/-!
Verification development for the `image-categorizer` batch pipeline.

The repository processes a list of image files against a rate-limited,
concurrency-bounded external service.  We shallowly embed:

* the token-bucket `Limiter` (`NewLimiter`, `refillTokens`, `Wait`) as a
  transition system on the reservoir occupancy (a `Nat`);
* the environment-variable configuration loaders (`getEnvInt`,
  `mustGetEnvInt`, and the `init` fallback logic of `main.go`), with
  `strconv.Atoi` modelled as an executable integer parser and a Go panic
  modelled as the `.error` branch of `Except`;
* the per-item processor `processImage` as a pure function from an
  oracle of effect outcomes to the list of `Result` values sent on the
  results channel (the `defer` in the source sends exactly the one
  record that each exit path constructs);
* the driver `main` (enqueue loop + semaphore + `sync.WaitGroup` +
  channel close) as a labelled transition system whose reachable states
  we analyse by invariant induction.
-/

namespace ImageCategorizer

/-! ## Token-bucket limiter (`part_000`: `NewLimiter`, `refillTokens`, `Wait`)

The limiter state is the occupancy of the buffered channel `l.tokens`
(capacity `ratePerMinute`).  `NewLimiter` fills the bucket completely.
Each ticker firing executes a `select` that adds one token if there is
room and otherwise drops the tick; `Wait` receives (blocks until a token
is present, then consumes exactly one). -/

/-- Occupancy of `l.tokens` right after `NewLimiter(ratePerMinute)`:
the constructor loop pushes `ratePerMinute` tokens into the channel. -/
def limiterInitTokens (ratePerMinute : Nat) : Nat := ratePerMinute

/-- One firing of the `refillTokens` ticker: the `select` adds a token
when the bucket is not full and is a no-op (`default` branch) otherwise. -/
def refillTick (rate occ : Nat) : Nat := if occ < rate then occ + 1 else occ

/-- Transition relation on the reservoir occupancy: either the refill
goroutine's ticker fires, or some caller's `Wait()` receives one token
(enabled only when a token is present, since the receive blocks). -/
inductive LimStep (rate : Nat) : Nat → Nat → Prop
  | tick (occ : Nat) : LimStep rate occ (refillTick rate occ)
  | wait (occ : Nat) (h : 0 < occ) : LimStep rate occ (occ - 1)

/-- Occupancies reachable from the freshly constructed limiter. -/
def LimReachable (rate occ : Nat) : Prop :=
  Relation.ReflTransGen (LimStep rate) (limiterInitTokens rate) occ

/-! ## Configuration loaders (`part_000`: `getEnvInt`/`mustGetEnvInt`;
`main.go`: the `init` block reading `OPENAI_API_MAX_CONCURRENT`) -/

/-- Numeric value of a decimal digit run, `none` when a non-digit occurs
or the run is empty. -/
def digitsVal : List Char → Option Nat
  | [] => none
  | [c] => if c.isDigit then some (c.toNat - 48) else none
  | c :: rest =>
    if c.isDigit then
      match digitsVal rest with
      | some n => some ((c.toNat - 48) * 10 ^ rest.length + n)
      | none => none
    else none

/-- Model of Go's `strconv.Atoi`: an optional sign followed by at least
one digit; anything else yields `ErrSyntax` (64-bit range errors are not
modelled, the configuration claims only distinguish success from error). -/
def atoiModel (s : String) : Except String Int :=
  match s.data with
  | [] => .error "invalid syntax"
  | '+' :: rest =>
    match digitsVal rest with
    | some n => .ok (n : Int)
    | none => .error "invalid syntax"
  | '-' :: rest =>
    match digitsVal rest with
    | some n => .ok (-(n : Int))
    | none => .error "invalid syntax"
  | l =>
    match digitsVal l with
    | some n => .ok (n : Int)
    | none => .error "invalid syntax"

/-- Model of `getEnvInt`: `value` is the `os.LookupEnv` result (`none`
when the variable is absent); unset or empty yields the fallback,
otherwise the `strconv.Atoi` outcome is returned unchanged. -/
def getEnvIntModel (value : Option String) (fallback : Int) : Except String Int :=
  match value with
  | none => .ok fallback
  | some v => if v = "" then .ok fallback else atoiModel v

/-- Model of `mustGetEnvInt`: identical outcomes to `getEnvInt`, with the
`.error` branch standing for the `panic(err)` that aborts the process
during package-variable initialization, before `main` runs. -/
def mustGetEnvIntModel (value : Option String) (fallback : Int) : Except String Int :=
  getEnvIntModel value fallback

/-- Model of the `main.go` `init` logic for `OPENAI_API_MAX_CONCURRENT`:
`os.Getenv` yields `""` when unset; a non-empty value is parsed and the
parsed value is adopted only when `strconv.Atoi` succeeds, otherwise the
default `1` silently remains in force. -/
def initMaxConcurrent (mc : String) : Int :=
  if mc = "" then 1
  else
    match atoiModel mc with
    | .ok n => n
    | .error _ => 1

/-! ## Result records (`type.go` / `main.go`: `Response`, `Result`)

`Response` is the structured payload unmarshalled from the external
call; `Result` extends it with the per-item bookkeeping fields.  The
`Error` field of the source (a Go `error`, JSON-ignored) is modelled as
`Option String`; `ErrorString` is the string serialized under the
`error,omitempty` JSON key, hence present in the output record exactly
when it is non-empty. -/

structure Response where
  twitchEmoteName : String := ""
  filename : String := ""
  description : String := ""
  category : String := ""
  nsfw : Bool := false
  mainColor : String := ""
  secondaryColor : String := ""
  emoteType : String := ""
  emoteStyle : String := ""
  emoteExpression : String := ""
  emoteFormat : String := ""
  emoteSize : String := ""
  emoteQuality : String := ""
  emoteSuitability28px : String := ""
deriving DecidableEq, Repr

structure Result extends Response where
  sourceFilepath : String := ""
  destinationFiles : List String := []
  error : Option String := none
  errorString : String := ""
deriving DecidableEq, Repr

/-- The collector loop in `main`: before serializing a drained result it
copies `result.Error.Error()` into `result.ErrorString` when the error is
non-nil, and otherwise leaves the record unchanged. -/
def collectorOutput (r : Result) : Result :=
  match r.error with
  | some e => { r with errorString := e }
  | none => r

/-! ## Image bytes, base64 and data URIs (`main.go`:
`imgBytesToDataURI` and the extension choice in `processImage`)

Image bytes are modelled as `List Nat` (one byte per element).  The GIF
sniff `len(imgBytes) > 3 && imgBytes[0] == 0x47 && imgBytes[1] == 0x49
&& imgBytes[2] == 0x46` occurs twice in the source, once in
`imgBytesToDataURI` and once in the save loop of `processImage`; the two
occurrences are embedded as two separate definitions so that their
agreement is a theorem rather than a definitional accident. -/

/-- The GIF magic-number test as written in `imgBytesToDataURI`
(`main.go` line 339).  Indexing is guarded by the length conjunct, as in
the short-circuiting Go expression. -/
def isGIFMagicURI (b : List Nat) : Bool :=
  decide (3 < b.length) && (b.getD 0 0 == 0x47) && (b.getD 1 0 == 0x49) && (b.getD 2 0 == 0x46)

/-- The GIF magic-number test as written in the save loop of
`processImage` (`main.go` line 249). -/
def isGIFMagicSave (b : List Nat) : Bool :=
  decide (3 < b.length) && (b.getD 0 0 == 0x47) && (b.getD 1 0 == 0x49) && (b.getD 2 0 == 0x46)

/-- Standard base64 alphabet used by `encoding/base64.StdEncoding`. -/
def b64Alphabet : List Char :=
  "ABCDEFGHIJKLMNOPQRSTUVWXYZabcdefghijklmnopqrstuvwxyz0123456789+/".data

/-- Character for a 6-bit group. -/
def b64Char (n : Nat) : Char := b64Alphabet.getD n 'A'

/-- Model of `base64.StdEncoding.EncodeToString`: 3-byte groups become 4
characters, with `=` padding for a 1- or 2-byte tail. -/
def base64Chars : List Nat → List Char
  | [] => []
  | [a] => [b64Char (a / 4), b64Char (a % 4 * 16), '=', '=']
  | [a, b] => [b64Char (a / 4), b64Char (a % 4 * 16 + b / 16), b64Char (b % 16 * 4), '=']
  | a :: b :: c :: rest =>
    b64Char (a / 4) :: b64Char (a % 4 * 16 + b / 16) :: b64Char (b % 16 * 4 + c / 64) ::
      b64Char (c % 64) :: base64Chars rest

/-- String form of the base64 encoding. -/
def base64Encode (b : List Nat) : String := ⟨base64Chars b⟩

/-- Model of `imgBytesToDataURI`: base64-encode the bytes and choose the
`image/gif` or `image/png` media type by the magic-number sniff. -/
def imgBytesToDataURI (b : List Nat) : String :=
  if isGIFMagicURI b then "data:image/gif;base64," ++ base64Encode b
  else "data:image/png;base64," ++ base64Encode b

/-- The file extension chosen in the save loop of `processImage`:
`"png"` unless the bytes pass the GIF magic-number test. -/
def fileExtensionChoice (b : List Nat) : String :=
  if isGIFMagicSave b then "gif" else "png"

/-! ## getImage (`main.go` lines 273-316)

The file and decoder outcomes are supplied by an oracle record; the
function's own control flow (the validation ladder and the GIF-first
decode order) is embedded directly. -/

/-- Decoded image data as far as `processImage` branches on it: whether
`getImage` returned a non-nil `*gif.GIF` (the animated-GIF branch). -/
structure ImgData where
  isGif : Bool
deriving DecidableEq, Repr

/-- Result of `image.DecodeConfig`: the claims concern the nil-ness of
the color model and the dimensions, so the color model is carried as its
nil-ness flag.  Dimensions are Go `int`s, hence `Int`. -/
structure ImageConfig where
  colorModelNil : Bool
  width : Int
  height : Int
deriving DecidableEq, Repr

/-- Oracle for the effectful calls inside `getImage`. -/
structure GetImageEnv where
  /-- Outcome of `os.Open(filename)`. -/
  openFile : Except String Unit
  /-- Outcome of `image.DecodeConfig(file)` (the config). -/
  decodeConfig : Except String ImageConfig
  /-- Format string returned by `image.DecodeConfig` alongside the config. -/
  configModel : String
  /-- Outcome of `gif.DecodeAll(file)` after rewinding. -/
  gifDecodeAll : Except String ImgData
  /-- Image outcome of `image.Decode(file)` after rewinding. -/
  stillImg : Except String ImgData
  /-- Format string returned by `image.Decode`. -/
  stillModel : String

/-- Model of `getImage`: open, decode the config, run the validation
ladder (nil color model, zero dimension, dimension above 4096), then try
`gif.DecodeAll` and fall back to `image.Decode`; the model-mismatch
check precedes the still-decode error return, as in the source. -/
def getImageModel (env : GetImageEnv) : Except String ImgData :=
  match env.openFile with
  | .error e => .error e
  | .ok _ =>
    match env.decodeConfig with
    | .error e => .error e
    | .ok cfg =>
      if cfg.colorModelNil then .error "image.DecodeConfig returned a nil ColorModel"
      else if cfg.height = 0 || cfg.width = 0 then
        .error "image.DecodeConfig returned a zero Height or Width"
      else if cfg.width > 4096 || cfg.height > 4096 then
        .error "image.DecodeConfig returned a Width or Height greater than hardcoded maximum size of 4096"
      else
        match env.gifDecodeAll with
        | .ok g => .ok g
        | .error _ =>
          if env.configModel ≠ env.stillModel then
            .error "image.DecodeConfig and image.Decode return different models"
          else env.stillImg

/-! ## processImage (`main.go` lines 126-271)

`processImage` is embedded as a pure function from an oracle of
per-call outcomes to the list of `Result` values sent on the results
channel.  The source sends exactly once through the `defer` at function
entry; accordingly every exit path of the model returns the one-element
list holding the record that the `defer` would send at that exit. -/

/-- The `strim99` placeholder that the external prompt asks the model to
use, replaced by the configured prefix after unmarshalling. -/
def emoteNamePlaceholder : String := "strim99"

/-- First-occurrence replacement on character lists, for a non-empty
pattern (model of `strings.Replace(s, old, new, 1)`). -/
def replaceFirstAux (pat rep : List Char) : List Char → List Char
  | [] => []
  | c :: cs =>
    if pat.isPrefixOf (c :: cs) then rep ++ (c :: cs).drop pat.length
    else c :: replaceFirstAux pat rep cs

/-- Model of `strings.Replace(s, pat, rep, 1)`.  For an empty pattern Go
inserts `rep` before the string; the pattern used in the source is the
literal `strim99`. -/
def replaceFirst (s pat rep : String) : String :=
  match pat.data with
  | [] => rep ++ s
  | _ :: _ => ⟨replaceFirstAux pat.data rep.data s.data⟩

/-- One tool call of the chat response (only its presence matters). -/
structure ChatToolCall where
  arguments : String := ""
deriving DecidableEq, Repr

/-- One choice of the chat response. -/
structure ChatChoice where
  toolCalls : List ChatToolCall := []
deriving DecidableEq, Repr

/-- The chat completion response: a list of choices. -/
structure ChatResp where
  choices : List ChatChoice := []
deriving DecidableEq, Repr

/-- Oracle for the effectful calls inside `processImage`, one field per
call site, in source order. -/
structure ProcEnv where
  /-- Outcome of `getImage(path)`. -/
  getImage : Except String ImgData
  /-- Outcome of `encodeGIF(gifImg)` on the original (GIF branch). -/
  encodeGIForiginal : Except String (List Nat)
  /-- Outcome of `encodeGIF(img28)` on the 28x28 resize (GIF branch). -/
  encodeGIF28 : Except String (List Nat)
  /-- Outcome of `imageToPNG(img)` on the original (still branch). -/
  encodePNGoriginal : Except String (List Nat)
  /-- Outcome of `imageToPNG(img28)` on the 28x28 resize (still branch). -/
  encodePNG28 : Except String (List Nat)
  /-- Outcome of `client.CreateChatCompletion`. -/
  chat : Except String ChatResp
  /-- Outcome of `jsonschema.VerifySchemaAndUnmarshal` (on success, the
  payload written into the result). -/
  unmarshal : Except String Response
  /-- Outcome of `saveBytesToDisk(imgBytes, filename)` per filename. -/
  saveFile : String → Except String Unit
  /-- Outcome of `saveResultToDisk(result, filename)`. -/
  saveResult : Except String Unit

/-- The save loop over `imagesBytes` in `processImage`: for each key the
extension is chosen by the magic-number sniff, the file is written, and
on failure the loop returns early with the error recorded (`.error r`
models that early `return`, after which the `defer` sends `r`).  Go map
iteration order is unspecified; the caller passes the entries in
insertion order, and no claim depends on the order. -/
def saveImagesLoop (saveFile : String → Except String Unit) :
    List (String × List Nat) → Result → Except Result Result
  | [], r => .ok r
  | (key, bytes) :: rest, r =>
    let filename := r.filename ++ "." ++ key ++ "." ++ fileExtensionChoice bytes
    match saveFile filename with
    | .error e => .error { r with error := some e }
    | .ok _ =>
      saveImagesLoop saveFile rest
        { r with destinationFiles := r.destinationFiles ++ [filename] }

/-- Tail of `processImage` (`main.go` lines 245-270): run the save loop
over the image entries, then `saveResultToDisk`; each exit yields the
singleton list of the record that the entry `defer` sends. -/
def saveAndFinish (sf : String → Except String Unit) (sr : Except String Unit)
    (items : List (String × List Nat)) (r2 : Result) : List Result :=
  match saveImagesLoop sf items r2 with
  | .error rerr => [rerr]
  | .ok r3 =>
    match sr with
    | .error e => [{ r3 with error := some e }]
    | .ok _ => [r3]

/-- Model of `processImage`: each exit path yields the singleton list of
the record sent by the entry `defer`.  A failed
`VerifySchemaAndUnmarshal` records the error but does not return (as in
the source, which continues to the rename and save steps). -/
def processImage (emoteNamePfx path : String) (env : ProcEnv) : List Result :=
  let result0 : Result := { sourceFilepath := path }
  match env.getImage with
  | .error e => [{ result0 with error := some e }]
  | .ok img =>
    let encOriginal := if img.isGif then env.encodeGIForiginal else env.encodePNGoriginal
    let enc28 := if img.isGif then env.encodeGIF28 else env.encodePNG28
    match encOriginal with
    | .error e => [{ result0 with error := some e }]
    | .ok origBytes =>
      match enc28 with
      | .error e => [{ result0 with error := some e }]
      | .ok bytes28 =>
        let _dataURIs := [imgBytesToDataURI origBytes, imgBytesToDataURI bytes28]
        match env.chat with
        | .error e => [{ result0 with error := some e }]
        | .ok resp =>
          match resp.choices with
          | [] => [{ result0 with error := some "no response received" }]
          | choice :: _ =>
            match choice.toolCalls with
            | [] => [{ result0 with error := some "no tool calls found" }]
            | _ :: _ =>
              let r1 : Result :=
                match env.unmarshal with
                | .error e => { result0 with error := some e }
                | .ok payload => { result0 with toResponse := payload }
              let r2 : Result :=
                { r1 with
                  twitchEmoteName :=
                    replaceFirst r1.twitchEmoteName emoteNamePlaceholder emoteNamePfx,
                  filename := replaceFirst r1.filename emoteNamePlaceholder emoteNamePfx }
              saveAndFinish env.saveFile env.saveResult
                [("original", origBytes), ("28x28", bytes28)] r2

/-- The record sent when `processImage` exits on the `getImage` error
path: only the source path and the error are populated. -/
def errorOnlyResult (path e : String) : Result :=
  { sourceFilepath := path, error := some e }

/-! ## The driver (`main`): enqueue loop, semaphore, WaitGroup, close

`main` (both the `main.go` variant and the `part_000` variant, selected
by `useLim`) runs:

* an enqueue loop, registered in the WaitGroup by the `wg.Add(1)`
  before the goroutine starts, which for each item optionally waits on
  the limiter (`part_000` only), acquires a semaphore slot
  (`sem <- struct{}{}`), does `wg.Add(1)` and spawns the task;
* one task per item executing `processImage` (whose entry `defer` sends
  the item's `Result` as its last action before returning), then
  `<-sem`, then the deferred `wg.Done()`;
* a closer goroutine executing `wg.Wait(); close(results)`.

The embedding is a labelled transition system.  The WaitGroup counter
and the semaphore occupancy are derived quantities: at every state the
counter equals one unit for the unfinished enqueue loop plus one unit
per spawned-but-not-`Done` task, and the semaphore occupancy equals the
slots held by live tasks plus the slot the loop holds between
`sem <- struct{}{}` and the spawn.  (The instant between the per-task
`wg.Add(1)` and the `go` statement is merged into the spawn event; in
that instant the loop's own unit keeps the counter positive, so the
merge does not change where the counter can reach zero.) -/

/-- Status of one task: not yet spawned; running `processImage`; result
sent (the `defer` inside `processImage` has fired) but slot still held;
slot released (`<-sem` done) but `wg.Done()` pending; fully done. -/
inductive TStatus
  | notSpawned
  | running
  | sentResult
  | released
  | done
deriving DecidableEq, Repr

/-- Statuses that hold a WaitGroup unit (spawned, `wg.Done()` not yet
executed). -/
def TStatus.isActive : TStatus → Bool
  | .running => true
  | .sentResult => true
  | .released => true
  | _ => false

/-- Statuses that hold a semaphore slot (spawned, `<-sem` not yet
executed). -/
def TStatus.isBusy : TStatus → Bool
  | .running => true
  | .sentResult => true
  | _ => false

/-- Statuses whose task has already sent its `Result`. -/
def TStatus.isSent : TStatus → Bool
  | .sentResult => true
  | .released => true
  | .done => true
  | _ => false

/-- Statuses in which `processImage` is currently executing (from the
spawn until the send that is its final action before returning). -/
def TStatus.isRunning : TStatus → Bool
  | .running => true
  | _ => false

/-- Micro-state of the enqueue loop within the current iteration:
before `limiter.Wait()` has returned, holding a limiter token, or
holding a semaphore slot (about to spawn). -/
inductive EnqPhase
  | idle
  | tokened
  | slotted
deriving DecidableEq, Repr

/-- Observable events of one driver execution. -/
inductive Ev
  | tick
  | tok (i : Nat)
  | slot (i : Nat)
  | spawn (i : Nat)
  | send (i : Nat)
  | release (i : Nat)
  | taskDone (i : Nat)
  | loopDone
  | closeCh
deriving DecidableEq, Repr

/-- Driver state.  `enq` is the index of the next item to enqueue (so
items `0 .. enq-1` have been spawned), `tstat` the per-task statuses,
`delivered` the sequence of item indices whose `Result` has been sent
on the results channel, `closed` whether `close(results)` has run, and
`lim` the limiter reservoir occupancy. -/
structure DState where
  enq : Nat
  phase : EnqPhase
  enqDone : Bool
  tstat : Nat → TStatus
  delivered : List Nat
  closed : Bool
  lim : Nat

/-- Number of indices below `N` whose status satisfies `p`. -/
def statCount (N : Nat) (p : TStatus → Bool) (f : Nat → TStatus) : Nat :=
  ((Finset.range N).filter (fun i => p (f i) = true)).card

/-- Value of the WaitGroup counter: one unit for the enqueue loop until
its deferred `wg.Done()` runs, plus one per spawned task whose deferred
`wg.Done()` has not run. -/
def wgCount (N : Nat) (s : DState) : Nat :=
  (if s.enqDone then 0 else 1) + statCount N TStatus.isActive s.tstat

/-- Occupancy of the semaphore channel `sem` (capacity
`maxConcurrent`): slots held by live tasks plus the slot held by the
enqueue loop between its `sem <- struct{}{}` and the spawn. -/
def semCount (N : Nat) (s : DState) : Nat :=
  statCount N TStatus.isBusy s.tstat + (if s.phase = .slotted then 1 else 0)

/-- Labelled transitions of the driver.  `useLim` selects the
`part_000` variant (whose loop begins with `limiter.Wait()`); the
`main.go` variant has no limiter, so with `useLim = false` the `tok`
step is a free move that leaves the reservoir untouched.  `N` is the
item count, `C` the semaphore capacity `maxConcurrent`, `R` the limiter
rate. -/
inductive DStep (useLim : Bool) (N C R : Nat) : DState → Ev → DState → Prop
  | tick (s : DState) :
      DStep useLim N C R s .tick { s with lim := refillTick R s.lim }
  | tok (s : DState) (h1 : s.enqDone = false) (h2 : s.phase = .idle)
      (h3 : s.enq < N) (h4 : useLim = true → 0 < s.lim) :
      DStep useLim N C R s (.tok s.enq)
        { s with phase := .tokened, lim := if useLim then s.lim - 1 else s.lim }
  | slot (s : DState) (h1 : s.enqDone = false) (h2 : s.phase = .tokened)
      (h3 : semCount N s < C) :
      DStep useLim N C R s (.slot s.enq) { s with phase := .slotted }
  | spawn (s : DState) (h1 : s.enqDone = false) (h2 : s.phase = .slotted) :
      DStep useLim N C R s (.spawn s.enq)
        { s with enq := s.enq + 1, phase := .idle,
                 tstat := Function.update s.tstat s.enq .running }
  | loopExit (s : DState) (h1 : s.enqDone = false) (h2 : s.phase = .idle)
      (h3 : s.enq = N) :
      DStep useLim N C R s .loopDone { s with enqDone := true }
  | send (s : DState) (i : Nat) (h : s.tstat i = .running) :
      DStep useLim N C R s (.send i)
        { s with tstat := Function.update s.tstat i .sentResult,
                 delivered := s.delivered ++ [i] }
  | release (s : DState) (i : Nat) (h : s.tstat i = .sentResult) :
      DStep useLim N C R s (.release i)
        { s with tstat := Function.update s.tstat i .released }
  | taskDone (s : DState) (i : Nat) (h : s.tstat i = .released) :
      DStep useLim N C R s (.taskDone i)
        { s with tstat := Function.update s.tstat i .done }
  | closeCh (s : DState) (h1 : wgCount N s = 0) (h2 : s.closed = false) :
      DStep useLim N C R s .closeCh { s with closed := true }

/-- A run: a finite sequence of labelled steps. -/
inductive DRun (useLim : Bool) (N C R : Nat) : DState → List Ev → DState → Prop
  | nil (s : DState) : DRun useLim N C R s [] s
  | cons {s s' s'' : DState} {e : Ev} {es : List Ev}
      (hstep : DStep useLim N C R s e s') (hrest : DRun useLim N C R s' es s'') :
      DRun useLim N C R s (e :: es) s''

/-- Initial driver state: nothing enqueued, WaitGroup holding exactly
the loop's unit (`wg.Add(1)` at line 93 precedes every spawn), limiter
reservoir full. -/
def initDriver (R : Nat) : DState :=
  { enq := 0, phase := .idle, enqDone := false,
    tstat := fun _ => .notSpawned, delivered := [], closed := false, lim := R }

/-- Reachability from the initial driver state. -/
def DReachable (useLim : Bool) (N C R : Nat) (s : DState) : Prop :=
  ∃ es, DRun useLim N C R (initDriver R) es s

/-- Inductive invariant of the driver. -/
structure DInv (N C : Nat) (s : DState) : Prop where
  enq_le : s.enq ≤ N
  not_spawned : ∀ i, s.enq ≤ i → s.tstat i = .notSpawned
  spawned : ∀ i, i < s.enq → s.tstat i ≠ .notSpawned
  enqDone_enq : s.enqDone = true → s.enq = N
  phase_enq : s.phase ≠ .idle → s.enq < N
  nodup : s.delivered.Nodup
  mem_delivered : ∀ i, i ∈ s.delivered ↔ (s.tstat i).isSent = true
  sem_le : semCount N s ≤ C
  closed_done : s.closed = true → s.enqDone = true ∧ ∀ i, i < N → s.tstat i = .done

/-- History flag: the enqueue loop has acquired the limiter token for
item `i` (it is past `limiter.Wait()` in iteration `i`). -/
def tokTaken (s : DState) (i : Nat) : Prop :=
  i < s.enq ∨ (i = s.enq ∧ s.phase ≠ .idle)

/-- History flag: the enqueue loop has acquired the semaphore slot for
item `i`. -/
def slotTaken (s : DState) (i : Nat) : Prop :=
  i < s.enq ∨ (i = s.enq ∧ s.phase = .slotted)

/-- Outcome of the argument check at the top of `main`: with no
positional arguments (`len(os.Args) == 1`) the usage message is printed
and `main` returns before the semaphore, WaitGroup, results channel or
any `limiter.Wait()` is touched; otherwise the pipeline runs on
`os.Args[1:]`. -/
inductive MainOutcome
  | usageMessage
  | pipeline (items : List String)
deriving DecidableEq, Repr

/-- The argument check of `main` (`args` is `os.Args`, program name
included). -/
def mainEntry (args : List String) : MainOutcome :=
  if args.length = 1 then .usageMessage else .pipeline (args.drop 1)

/-- Events of a complete demonstration run: one item, `maxConcurrent`
and rate both 1, in the `part_000` (limiter) variant. -/
def demoEvents : List Ev :=
  [.tok 0, .slot 0, .spawn 0, .loopDone, .send 0, .release 0, .taskDone 0, .closeCh]

/-- Final state of the demonstration run. -/
def demoEndState : DState :=
  { enq := 1, phase := .idle, enqDone := true,
    tstat := Function.update (Function.update (Function.update
      (Function.update (fun _ => TStatus.notSpawned) 0 .running) 0 .sentResult)
      0 .released) 0 .done,
    delivered := [0], closed := true, lim := 0 }

/-! ## Counting and invariant lemmas for the driver -/

/-- Updating one status below `N` exchanges its own contribution to a
status count: the count after the update plus the old contribution
equals the count before plus the new contribution. -/
theorem statCount_update (N : Nat) (p : TStatus → Bool) (f : Nat → TStatus)
    (j : Nat) (hj : j < N) (v : TStatus) :
    statCount N p (Function.update f j v) + (if p (f j) then 1 else 0)
      = statCount N p f + (if p v then 1 else 0) := by
  classical
  unfold statCount
  have hjmem : j ∈ Finset.range N := Finset.mem_range.mpr hj
  have hins : Finset.range N = insert j ((Finset.range N).erase j) :=
    (Finset.insert_erase hjmem).symm
  rw [hins, Finset.filter_insert, Finset.filter_insert]
  have hcong :
      ((Finset.range N).erase j).filter (fun i => p (Function.update f j v i) = true)
        = ((Finset.range N).erase j).filter (fun i => p (f i) = true) := by
    apply Finset.filter_congr
    intro i hi
    have hne : i ≠ j := Finset.ne_of_mem_erase hi
    rw [Function.update_noteq hne]
  have hnotmem : j ∉ ((Finset.range N).erase j).filter (fun i => p (f i) = true) := by
    simp [Finset.mem_filter]
  rw [hcong, Function.update_same]
  by_cases hv : p v = true <;> by_cases hf : p (f j) = true <;>
    simp [hv, hf, Finset.card_insert_of_not_mem hnotmem]

/-- A step of the driver preserves the invariant. -/
theorem dstep_inv {useLim : Bool} {N C R : Nat} {s s' : DState} {e : Ev}
    (hst : DStep useLim N C R s e s') (h : DInv N C s) : DInv N C s' := by
  cases hst with
  | tick =>
    exact ⟨h.enq_le, h.not_spawned, h.spawned, h.enqDone_enq, h.phase_enq,
      h.nodup, h.mem_delivered, h.sem_le, h.closed_done⟩
  | tok h1 h2 h3 h4 =>
    refine ⟨?_, ?_, ?_, ?_, ?_, ?_, ?_, ?_, ?_⟩ <;> (try dsimp only)
    · exact h.enq_le
    · exact h.not_spawned
    · exact h.spawned
    · exact h.enqDone_enq
    · intro _; exact h3
    · exact h.nodup
    · exact h.mem_delivered
    · have hs := h.sem_le
      simp only [semCount, h2] at hs
      simp only [semCount]
      try dsimp only
      simp at hs ⊢
      omega
    · intro hc
      have hcl := (h.closed_done hc).1
      rw [h1] at hcl
      exact absurd hcl (by simp)
  | slot h1 h2 h3 =>
    refine ⟨?_, ?_, ?_, ?_, ?_, ?_, ?_, ?_, ?_⟩ <;> (try dsimp only)
    · exact h.enq_le
    · exact h.not_spawned
    · exact h.spawned
    · exact h.enqDone_enq
    · intro _; exact h.phase_enq (by simp [h2])
    · exact h.nodup
    · exact h.mem_delivered
    · have h3' := h3
      simp only [semCount, h2] at h3'
      simp only [semCount]
      try dsimp only
      simp at h3' ⊢
      omega
    · intro hc
      have hcl := (h.closed_done hc).1
      rw [h1] at hcl
      exact absurd hcl (by simp)
  | spawn h1 h2 =>
    have henq : s.enq < N := h.phase_enq (by simp [h2])
    have hns : s.tstat s.enq = .notSpawned := h.not_spawned s.enq (Nat.le_refl _)
    refine ⟨?_, ?_, ?_, ?_, ?_, ?_, ?_, ?_, ?_⟩ <;> (try dsimp only)
    · omega
    · intro i hi
      rw [Function.update_noteq (by omega : i ≠ s.enq)]
      exact h.not_spawned i (by omega)
    · intro i hi
      by_cases hie : i = s.enq
      · subst hie
        rw [Function.update_same]
        simp
      · rw [Function.update_noteq hie]
        exact h.spawned i (by omega)
    · intro hd
      rw [h1] at hd
      exact absurd hd (by simp)
    · intro hph
      exact absurd rfl hph
    · exact h.nodup
    · intro i
      by_cases hie : i = s.enq
      · subst hie
        rw [Function.update_same]
        have hmem := h.mem_delivered s.enq
        rw [hns] at hmem
        simp [TStatus.isSent] at hmem ⊢
        exact hmem
      · rw [Function.update_noteq hie]
        exact h.mem_delivered i
    · have hs := h.sem_le
      simp only [semCount, h2] at hs
      have hupd := statCount_update N TStatus.isBusy s.tstat s.enq henq .running
      rw [hns] at hupd
      simp [TStatus.isBusy] at hupd hs
      simp only [semCount]
      try dsimp only
      simp
      omega
    · intro hc
      have hcl := (h.closed_done hc).1
      rw [h1] at hcl
      exact absurd hcl (by simp)
  | loopExit h1 h2 h3 =>
    refine ⟨?_, ?_, ?_, ?_, ?_, ?_, ?_, ?_, ?_⟩ <;> (try dsimp only)
    · exact h.enq_le
    · exact h.not_spawned
    · exact h.spawned
    · intro _; exact h3
    · intro hph; exact absurd h2 hph
    · exact h.nodup
    · exact h.mem_delivered
    · exact h.sem_le
    · intro hc
      have hcl := (h.closed_done hc).1
      rw [h1] at hcl
      exact absurd hcl (by simp)
  | send i hrun =>
    have hi : i < s.enq := by
      by_contra hge
      rw [h.not_spawned i (by omega)] at hrun
      exact absurd hrun (by simp)
    have hiN : i < N := by have := h.enq_le; omega
    have hnotin : i ∉ s.delivered := by
      rw [h.mem_delivered i, hrun]
      simp [TStatus.isSent]
    refine ⟨?_, ?_, ?_, ?_, ?_, ?_, ?_, ?_, ?_⟩ <;> (try dsimp only)
    · exact h.enq_le
    · intro j hj
      rw [Function.update_noteq (by omega : j ≠ i)]
      exact h.not_spawned j hj
    · intro j hj
      by_cases hje : j = i
      · subst hje
        rw [Function.update_same]
        simp
      · rw [Function.update_noteq hje]
        exact h.spawned j hj
    · exact h.enqDone_enq
    · exact h.phase_enq
    · rw [List.nodup_append]
      refine ⟨h.nodup, by simp, ?_⟩
      intro a ha hb
      simp at hb
      subst hb
      exact hnotin ha
    · intro j
      by_cases hje : j = i
      · subst hje
        rw [Function.update_same]
        simp [TStatus.isSent]
      · rw [Function.update_noteq hje, List.mem_append]
        simp [hje, h.mem_delivered j]
    · have hs := h.sem_le
      have hupd := statCount_update N TStatus.isBusy s.tstat i hiN .sentResult
      rw [hrun] at hupd
      simp [TStatus.isBusy] at hupd
      simp only [semCount] at hs ⊢
      try dsimp only
      omega
    · intro hc
      have hdone := (h.closed_done hc).2 i hiN
      rw [hdone] at hrun
      exact absurd hrun (by simp)
  | release i hsr =>
    have hi : i < s.enq := by
      by_contra hge
      rw [h.not_spawned i (by omega)] at hsr
      exact absurd hsr (by simp)
    have hiN : i < N := by have := h.enq_le; omega
    refine ⟨?_, ?_, ?_, ?_, ?_, ?_, ?_, ?_, ?_⟩ <;> (try dsimp only)
    · exact h.enq_le
    · intro j hj
      rw [Function.update_noteq (by omega : j ≠ i)]
      exact h.not_spawned j hj
    · intro j hj
      by_cases hje : j = i
      · subst hje
        rw [Function.update_same]
        simp
      · rw [Function.update_noteq hje]
        exact h.spawned j hj
    · exact h.enqDone_enq
    · exact h.phase_enq
    · exact h.nodup
    · intro j
      by_cases hje : j = i
      · subst hje
        rw [Function.update_same]
        have hmem := h.mem_delivered j
        rw [hsr] at hmem
        simp [TStatus.isSent] at hmem ⊢
        exact hmem
      · rw [Function.update_noteq hje]
        exact h.mem_delivered j
    · have hs := h.sem_le
      have hupd := statCount_update N TStatus.isBusy s.tstat i hiN .released
      rw [hsr] at hupd
      simp [TStatus.isBusy] at hupd
      simp only [semCount] at hs ⊢
      try dsimp only
      omega
    · intro hc
      have hdone := (h.closed_done hc).2 i hiN
      rw [hdone] at hsr
      exact absurd hsr (by simp)
  | taskDone i hrel =>
    have hi : i < s.enq := by
      by_contra hge
      rw [h.not_spawned i (by omega)] at hrel
      exact absurd hrel (by simp)
    have hiN : i < N := by have := h.enq_le; omega
    refine ⟨?_, ?_, ?_, ?_, ?_, ?_, ?_, ?_, ?_⟩ <;> (try dsimp only)
    · exact h.enq_le
    · intro j hj
      rw [Function.update_noteq (by omega : j ≠ i)]
      exact h.not_spawned j hj
    · intro j hj
      by_cases hje : j = i
      · subst hje
        rw [Function.update_same]
        simp
      · rw [Function.update_noteq hje]
        exact h.spawned j hj
    · exact h.enqDone_enq
    · exact h.phase_enq
    · exact h.nodup
    · intro j
      by_cases hje : j = i
      · subst hje
        rw [Function.update_same]
        have hmem := h.mem_delivered j
        rw [hrel] at hmem
        simp [TStatus.isSent] at hmem ⊢
        exact hmem
      · rw [Function.update_noteq hje]
        exact h.mem_delivered j
    · have hs := h.sem_le
      have hupd := statCount_update N TStatus.isBusy s.tstat i hiN .done
      rw [hrel] at hupd
      simp [TStatus.isBusy] at hupd
      simp only [semCount] at hs ⊢
      try dsimp only
      omega
    · intro hc
      have hdone := (h.closed_done hc).2 i hiN
      rw [hdone] at hrel
      exact absurd hrel (by simp)
  | closeCh h1 h2 =>
    refine ⟨?_, ?_, ?_, ?_, ?_, ?_, ?_, ?_, ?_⟩ <;> (try dsimp only)
    · exact h.enq_le
    · exact h.not_spawned
    · exact h.spawned
    · exact h.enqDone_enq
    · exact h.phase_enq
    · exact h.nodup
    · exact h.mem_delivered
    · exact h.sem_le
    · intro _
      have henqd : s.enqDone = true := by
        cases hdb : s.enqDone
        · simp only [wgCount, hdb] at h1
          simp at h1
        · rfl
      refine ⟨henqd, ?_⟩
      have hact : statCount N TStatus.isActive s.tstat = 0 := by
        simp only [wgCount, henqd] at h1
        simpa using h1
      have hemp : ((Finset.range N).filter
          (fun j => TStatus.isActive (s.tstat j) = true)) = ∅ := by
        simp only [statCount] at hact
        exact Finset.card_eq_zero.mp hact
      intro i hiN
      have henqN : s.enq = N := h.enqDone_enq henqd
      have hsp : s.tstat i ≠ .notSpawned := h.spawned i (by omega)
      have hnotact : ¬ (s.tstat i).isActive = true := by
        intro hacti
        have hmemf : i ∈ ((Finset.range N).filter
            (fun j => TStatus.isActive (s.tstat j) = true)) := by
          simp [Finset.mem_filter, hiN, hacti]
        rw [hemp] at hmemf
        simp at hmemf
      cases hstat : s.tstat i <;> rw [hstat] at hsp hnotact <;>
        first
          | rfl
          | simp [TStatus.isActive] at hsp hnotact
/-- A run preserves the invariant. -/
theorem drun_inv {u : Bool} {N C R : Nat} {s : DState} {es : List Ev} {s' : DState}
    (hr : DRun u N C R s es s') (h : DInv N C s) : DInv N C s' := by
  induction hr with
  | nil => exact h
  | cons hstep _ ih => exact ih (dstep_inv hstep h)

/-- The initial driver state satisfies the invariant. -/
theorem initDriver_inv (N C R : Nat) : DInv N C (initDriver R) := by
  refine ⟨?_, ?_, ?_, ?_, ?_, ?_, ?_, ?_, ?_⟩
  · simp [initDriver]
  · intro i _; rfl
  · intro i hi; simp [initDriver] at hi
  · intro hd; simp [initDriver] at hd
  · intro hph; simp [initDriver] at hph
  · simp [initDriver]
  · intro i; simp [initDriver, TStatus.isSent]
  · simp [semCount, statCount, initDriver, TStatus.isBusy]
  · intro hc; simp [initDriver] at hc

/-- Every reachable driver state satisfies the invariant. -/
theorem dreach_inv {u : Bool} {N C R : Nat} {s : DState}
    (h : DReachable u N C R s) : DInv N C s := by
  obtain ⟨es, hr⟩ := h
  exact drun_inv hr (initDriver_inv N C R)

/-! ## processImage field lemmas -/

/-- The save loop touches only `error` and `destinationFiles`: on either
outcome the source path and the (still unset) output error string are
those of the record it started from, and the early-exit record always
carries an error. -/
theorem saveImagesLoop_fields (sf : String → Except String Unit)
    (items : List (String × List Nat)) (r : Result) :
    (∀ r', saveImagesLoop sf items r = .error r' →
      r'.sourceFilepath = r.sourceFilepath ∧ r'.errorString = r.errorString ∧
        ∃ e, r'.error = some e) ∧
    (∀ r', saveImagesLoop sf items r = .ok r' →
      r'.sourceFilepath = r.sourceFilepath ∧ r'.errorString = r.errorString ∧
        r'.error = r.error) := by
  induction items generalizing r with
  | nil =>
    constructor
    · intro r' hl
      simp [saveImagesLoop] at hl
    · intro r' hl
      simp [saveImagesLoop] at hl
      rw [← hl]
      exact ⟨rfl, rfl, rfl⟩
  | cons hd tl ih =>
    obtain ⟨key, bytes⟩ := hd
    constructor
    · intro r' hl
      simp only [saveImagesLoop] at hl
      cases hsf : sf (r.filename ++ "." ++ key ++ "." ++ fileExtensionChoice bytes) with
      | error e =>
        rw [hsf] at hl
        simp at hl
        rw [← hl]
        exact ⟨rfl, rfl, e, rfl⟩
      | ok u =>
        rw [hsf] at hl
        have := (ih { r with destinationFiles :=
          r.destinationFiles ++ [r.filename ++ "." ++ key ++ "." ++ fileExtensionChoice bytes] }).1 r' hl
        exact this
    · intro r' hl
      simp only [saveImagesLoop] at hl
      cases hsf : sf (r.filename ++ "." ++ key ++ "." ++ fileExtensionChoice bytes) with
      | error e =>
        rw [hsf] at hl
        simp at hl
      | ok u =>
        rw [hsf] at hl
        have := (ih { r with destinationFiles :=
          r.destinationFiles ++ [r.filename ++ "." ++ key ++ "." ++ fileExtensionChoice bytes] }).2 r' hl
        exact this

/-- Fields of the records produced by the tail of `processImage`
(save loop followed by `saveResultToDisk`), for any starting record. -/
theorem saveAndFinish_fields (path : String) (sf : String → Except String Unit)
    (sr : Except String Unit) (items : List (String × List Nat)) (r2 : Result)
    (hsrc : r2.sourceFilepath = path) (hes : r2.errorString = "") :
    (saveAndFinish sf sr items r2).length = 1 ∧
    ∀ r ∈ saveAndFinish sf sr items r2,
      r.sourceFilepath = path ∧ r.errorString = "" := by
  unfold saveAndFinish
  rcases hsl : saveImagesLoop sf items r2 with rerr | r3
  · have hf := (saveImagesLoop_fields sf items r2).1 rerr hsl
    simp [hf.1, hf.2.1, hsrc, hes]
  · have hf := (saveImagesLoop_fields sf items r2).2 r3 hsl
    rcases sr with e | u <;> simp [hf.1, hf.2.1, hsrc, hes]

/-- Every exit path of `processImage` sends exactly one `Result`, and
that record carries the item's own source path and an empty output
error string (the collector, not the processor, fills `ErrorString`). -/
theorem processImage_fields (pfx path : String) (env : ProcEnv) :
    (processImage pfx path env).length = 1 ∧
    ∀ r ∈ processImage pfx path env, r.sourceFilepath = path ∧ r.errorString = "" := by
  unfold processImage
  rcases hgi : env.getImage with e | img
  · simp [hgi]
  · rcases ho : (if img.isGif then env.encodeGIForiginal else env.encodePNGoriginal)
      with e | origBytes
    · simp [hgi, ho]
    · rcases h28 : (if img.isGif then env.encodeGIF28 else env.encodePNG28)
        with e | bytes28
      · simp [hgi, ho, h28]
      · rcases hch : env.chat with e | resp
        · simp [hgi, ho, h28, hch]
        · rcases hcs : resp.choices with _ | ⟨choice, rest⟩
          · simp [hgi, ho, h28, hch, hcs]
          · rcases htc : choice.toolCalls with _ | ⟨tc, tcs⟩
            · simp [hgi, ho, h28, hch, hcs, htc]
            · rcases hum : env.unmarshal with e | payload <;>
              · simp only [hgi, ho, h28, hch, hcs, htc, hum]
                try dsimp only
                exact saveAndFinish_fields path env.saveFile env.saveResult _ _
                  (by simp) (by simp)

/-! ## First theorems (limiter capacity, C4) -/

/-- Helper: the reservoir occupancy bound is inductive along `LimStep`. -/
theorem limStep_le {rate a b : Nat} (h : LimStep rate a b) (ha : a ≤ rate) : b ≤ rate := by
  cases h with
  | tick =>
    unfold refillTick
    split
    · omega
    · exact ha
  | wait h => omega

/-- C4: the limiter's reservoir starts full with `C` tokens at
construction, its occupancy never exceeds `C` along any interleaving of
refill ticks and `Wait` calls, a refill tick adds exactly one token when
the occupancy is below `C` and is dropped otherwise, and a `Wait` step
consumes exactly one token. -/
theorem limiter_capacity_invariant (rate occ : Nat) (h : LimReachable rate occ) :
    limiterInitTokens rate = rate ∧
    occ ≤ rate ∧
    (occ < rate → refillTick rate occ = occ + 1) ∧
    (rate ≤ occ → refillTick rate occ = occ) ∧
    (0 < occ → LimStep rate occ (occ - 1)) := by
  have hle : occ ≤ rate := by
    induction h with
    | refl => exact Nat.le_refl rate
    | tail _ hstep ih => exact limStep_le hstep ih
  refine ⟨rfl, hle, ?_, ?_, ?_⟩
  · intro hlt
    unfold refillTick
    simp [hlt]
  · intro hge
    unfold refillTick
    simp [Nat.not_lt.mpr hge]
  · intro hpos
    exact LimStep.wait occ hpos

/-- Witness for C4: after a `Wait` and a refill tick from the full
reservoir of a rate-2 limiter, the conclusions hold concretely. -/
theorem limiter_capacity_invariant_witness :
    limiterInitTokens 2 = 2 ∧
    2 ≤ 2 ∧
    (2 < 2 → refillTick 2 2 = 3) ∧
    (2 ≤ 2 → refillTick 2 2 = 2) ∧
    (0 < 2 → LimStep 2 2 1) := by
  have hreach : LimReachable 2 2 := by
    have h1 : LimStep 2 2 1 := LimStep.wait 2 (by decide)
    have h2 : LimStep 2 1 (refillTick 2 1) := LimStep.tick 1
    have h2' : LimStep 2 1 2 := by
      have : refillTick 2 1 = 2 := by decide
      rw [this] at h2
      exact h2
    exact Relation.ReflTransGen.tail (Relation.ReflTransGen.single h1) h2'
  exact limiter_capacity_invariant 2 2 hreach

/-! ## Driver theorems: completion handshake, delivery, concurrency -/

/-- Shared consequence of the invariant in a closed state: the delivered
indices are exactly `0 .. N-1`, without duplication, so exactly `N`
results were sent before the channel was closed. -/
theorem closed_delivered_facts (useLim : Bool) (N C R : Nat) (s : DState)
    (hreach : DReachable useLim N C R s) (hclosed : s.closed = true) :
    s.delivered.length = N ∧ s.delivered.Nodup ∧ ∀ i, i ∈ s.delivered ↔ i < N := by
  have hinv := dreach_inv hreach
  have hcd := hinv.closed_done hclosed
  have henqN : s.enq = N := hinv.enqDone_enq hcd.1
  have hmem : ∀ i, i ∈ s.delivered ↔ i < N := by
    intro i
    rw [hinv.mem_delivered i]
    constructor
    · intro hsent
      by_contra hge
      rw [hinv.not_spawned i (by omega)] at hsent
      simp [TStatus.isSent] at hsent
    · intro hlt
      rw [hcd.2 i hlt]
      rfl
  refine ⟨?_, hinv.nodup, hmem⟩
  have htf : s.delivered.toFinset = Finset.range N := by
    ext i
    simp only [List.mem_toFinset, Finset.mem_range]
    exact hmem i
  have hcard := List.toFinset_card_of_nodup hinv.nodup
  rw [htf, Finset.card_range] at hcard
  omega

/-- The demonstration run: one item through the limiter variant with
`maxConcurrent = 1` and rate 1, ending closed. -/
theorem demoRun : DRun true 1 1 1 (initDriver 1) demoEvents demoEndState := by
  refine DRun.cons (DStep.tok (initDriver 1) rfl rfl (by decide) (fun _ => by decide)) ?_
  refine DRun.cons (DStep.slot _ rfl rfl (by decide)) ?_
  refine DRun.cons (DStep.spawn _ rfl rfl) ?_
  refine DRun.cons (DStep.loopExit _ rfl rfl (by decide)) ?_
  refine DRun.cons (DStep.send _ 0 (by decide)) ?_
  refine DRun.cons (DStep.release _ 0 (by decide)) ?_
  refine DRun.cons (DStep.taskDone _ 0 (by decide)) ?_
  refine DRun.cons (DStep.closeCh _ (by decide) rfl) ?_
  exact DRun.nil demoEndState

/-- C1: in both driver variants, for any batch the results channel can
be closed only after every one of the `N` results has been delivered:
every reachable state with `closed = true` has delivered exactly `N`
results.  The registration discipline (the loop's initial `wg.Add(1)`,
the per-task `wg.Add(1)` before each spawn, the `wg.Done()` after each
delivery) is built into the transition system, whose `closeCh` step is
gated on the derived WaitGroup counter reaching zero. -/
theorem close_only_after_all_delivered (useLim : Bool) (N C R : Nat) (s : DState)
    (hreach : DReachable useLim N C R s) (hclosed : s.closed = true) :
    s.delivered.length = N :=
  (closed_delivered_facts useLim N C R s hreach hclosed).1

/-- Witness for C1 on the concrete one-item run. -/
theorem close_only_after_all_delivered_witness : demoEndState.delivered.length = 1 :=
  close_only_after_all_delivered true 1 1 1 demoEndState ⟨demoEvents, demoRun⟩ rfl

/-- C2: exactly `N` results are delivered — the delivered item indices
in a closed state are precisely `0 .. N-1` with no duplication and no
loss — and `processImage` sends exactly one `Result` on every exit
path, carrying its own source path. -/
theorem exactly_one_result_per_item (useLim : Bool) (N C R : Nat) (s : DState)
    (hreach : DReachable useLim N C R s) (hclosed : s.closed = true) :
    s.delivered.length = N ∧ s.delivered.Nodup ∧ (∀ i, i ∈ s.delivered ↔ i < N) ∧
    ∀ pfx path env, (processImage pfx path env).length = 1 ∧
      ∀ r ∈ processImage pfx path env, r.sourceFilepath = path := by
  have hd := closed_delivered_facts useLim N C R s hreach hclosed
  refine ⟨hd.1, hd.2.1, hd.2.2, ?_⟩
  intro pfx path env
  have hp := processImage_fields pfx path env
  exact ⟨hp.1, fun r hr => (hp.2 r hr).1⟩

/-- Witness for C2 on the concrete one-item run. -/
theorem exactly_one_result_per_item_witness :
    demoEndState.delivered.length = 1 ∧ demoEndState.delivered.Nodup ∧
    (∀ i, i ∈ demoEndState.delivered ↔ i < 1) ∧
    ∀ pfx path env, (processImage pfx path env).length = 1 ∧
      ∀ r ∈ processImage pfx path env, r.sourceFilepath = path :=
  exactly_one_result_per_item true 1 1 1 demoEndState ⟨demoEvents, demoRun⟩ rfl

/-- C3: at every reachable instant, in both driver variants, at most
`maxConcurrent` invocations of `processImage` execute concurrently: the
semaphore slot is acquired before each spawn and released only after
the task's `processImage` call has returned. -/
theorem concurrency_bound (useLim : Bool) (N C R : Nat) (s : DState)
    (hreach : DReachable useLim N C R s) :
    statCount N TStatus.isRunning s.tstat ≤ C := by
  have hinv := dreach_inv hreach
  have himp : ∀ t : TStatus, t.isRunning = true → t.isBusy = true := by
    intro t ht
    cases t <;> simp_all [TStatus.isRunning, TStatus.isBusy]
  have hsub : statCount N TStatus.isRunning s.tstat
      ≤ statCount N TStatus.isBusy s.tstat := by
    unfold statCount
    apply Finset.card_le_card
    intro i hi
    simp only [Finset.mem_filter] at hi ⊢
    exact ⟨hi.1, himp _ hi.2⟩
  have hsem := hinv.sem_le
  simp only [semCount] at hsem
  omega

/-- Witness for C3 at the end of the concrete one-item run. -/
theorem concurrency_bound_witness :
    statCount 1 TStatus.isRunning demoEndState.tstat ≤ 1 :=
  concurrency_bound true 1 1 1 demoEndState ⟨demoEvents, demoRun⟩

/-! ## Event-order lemmas for the admission sequence (C5) -/

/-- A run over a decomposed event list splits at the distinguished
event. -/
theorem drun_split {u : Bool} {N C R : Nat} {s s'' : DState}
    {es1 : List Ev} {e : Ev} {es2 : List Ev}
    (h : DRun u N C R s (es1 ++ e :: es2) s'') :
    ∃ s1 s2, DRun u N C R s es1 s1 ∧ DStep u N C R s1 e s2 ∧
      DRun u N C R s2 es2 s'' := by
  induction es1 generalizing s with
  | nil =>
    cases h with
    | cons hstep hrest => exact ⟨s, _, DRun.nil s, hstep, hrest⟩
  | cons e1 tl ih =>
    cases h with
    | cons hstep hrest =>
      obtain ⟨s1, s2, h1, h2, h3⟩ := ih hrest
      exact ⟨s1, s2, DRun.cons hstep h1, h2, h3⟩

/-- One step can set a history flag only by emitting the matching
event. -/
theorem dstep_history {u : Bool} {N C R : Nat} {s s' : DState} {e : Ev}
    (hst : DStep u N C R s e s') (i : Nat) :
    (tokTaken s' i → tokTaken s i ∨ e = .tok i) ∧
    (slotTaken s' i → slotTaken s i ∨ e = .slot i) ∧
    (i < s'.enq → i < s.enq ∨ e = .spawn i) ∧
    ((s'.tstat i).isSent = true → (s.tstat i).isSent = true ∨ e = .send i) := by
  cases hst with
  | tick =>
    exact ⟨fun h => Or.inl h, fun h => Or.inl h, fun h => Or.inl h, fun h => Or.inl h⟩
  | tok h1 h2 h3 h4 =>
    refine ⟨?_, ?_, fun h => Or.inl h, fun h => Or.inl h⟩
    · rintro (hlt | ⟨heq, -⟩)
      · exact Or.inl (Or.inl hlt)
      · subst heq
        exact Or.inr rfl
    · rintro (hlt | ⟨-, habs⟩)
      · exact Or.inl (Or.inl hlt)
      · simp at habs
  | slot h1 h2 h3 =>
    refine ⟨?_, ?_, fun h => Or.inl h, fun h => Or.inl h⟩
    · rintro (hlt | ⟨heq, -⟩)
      · exact Or.inl (Or.inl hlt)
      · exact Or.inl (Or.inr ⟨heq, by simp [h2]⟩)
    · rintro (hlt | ⟨heq, -⟩)
      · exact Or.inl (Or.inl hlt)
      · subst heq
        exact Or.inr rfl
  | spawn h1 h2 =>
    refine ⟨?_, ?_, ?_, ?_⟩
    · rintro (hlt | ⟨-, habs⟩)
      · dsimp only at hlt
        rcases Nat.lt_succ_iff_lt_or_eq.mp hlt with hlt' | heq
        · exact Or.inl (Or.inl hlt')
        · exact Or.inl (Or.inr ⟨heq, by simp [h2]⟩)
      · exact absurd rfl habs
    · rintro (hlt | ⟨-, habs⟩)
      · dsimp only at hlt
        rcases Nat.lt_succ_iff_lt_or_eq.mp hlt with hlt' | heq
        · exact Or.inl (Or.inl hlt')
        · exact Or.inl (Or.inr ⟨heq, h2⟩)
      · simp at habs
    · intro hlt
      dsimp only at hlt
      rcases Nat.lt_succ_iff_lt_or_eq.mp hlt with hlt' | heq
      · exact Or.inl hlt'
      · subst heq
        exact Or.inr rfl
    · intro hs
      dsimp only at hs
      by_cases hie : i = s.enq
      · subst hie
        rw [Function.update_same] at hs
        exact absurd hs (by decide)
      · rw [Function.update_noteq hie] at hs
        exact Or.inl hs
  | loopExit h1 h2 h3 =>
    exact ⟨fun h => Or.inl h, fun h => Or.inl h, fun h => Or.inl h, fun h => Or.inl h⟩
  | send i0 hrun =>
    refine ⟨fun h => Or.inl h, fun h => Or.inl h, fun h => Or.inl h, ?_⟩
    intro hs
    dsimp only at hs
    by_cases hie : i = i0
    · subst hie
      exact Or.inr rfl
    · rw [Function.update_noteq hie] at hs
      exact Or.inl hs
  | release i0 hsr =>
    refine ⟨fun h => Or.inl h, fun h => Or.inl h, fun h => Or.inl h, ?_⟩
    intro hs
    dsimp only at hs
    by_cases hie : i = i0
    · subst hie
      refine Or.inl ?_
      rw [hsr]
      rfl
    · rw [Function.update_noteq hie] at hs
      exact Or.inl hs
  | taskDone i0 hrel =>
    refine ⟨fun h => Or.inl h, fun h => Or.inl h, fun h => Or.inl h, ?_⟩
    intro hs
    dsimp only at hs
    by_cases hie : i = i0
    · subst hie
      refine Or.inl ?_
      rw [hrel]
      rfl
    · rw [Function.update_noteq hie] at hs
      exact Or.inl hs
  | closeCh h1 h2 =>
    exact ⟨fun h => Or.inl h, fun h => Or.inl h, fun h => Or.inl h, fun h => Or.inl h⟩

/-- Along a run, a history flag that holds at the end either held at the
start or the matching event occurs in the run's event list. -/
theorem drun_history {u : Bool} {N C R : Nat} {s0 s : DState} {es : List Ev}
    (h : DRun u N C R s0 es s) (i : Nat) :
    (tokTaken s i → tokTaken s0 i ∨ .tok i ∈ es) ∧
    (slotTaken s i → slotTaken s0 i ∨ .slot i ∈ es) ∧
    (i < s.enq → i < s0.enq ∨ .spawn i ∈ es) ∧
    ((s.tstat i).isSent = true → (s0.tstat i).isSent = true ∨ .send i ∈ es) := by
  induction h with
  | nil =>
    exact ⟨fun h => Or.inl h, fun h => Or.inl h, fun h => Or.inl h, fun h => Or.inl h⟩
  | cons hstep hrest ih =>
    have hst := dstep_history hstep i
    refine ⟨?_, ?_, ?_, ?_⟩
    · intro hf
      rcases ih.1 hf with hmid | hmem
      · rcases hst.1 hmid with h0 | he
        · exact Or.inl h0
        · subst he
          exact Or.inr (List.mem_cons_self _ _)
      · exact Or.inr (List.mem_cons_of_mem _ hmem)
    · intro hf
      rcases ih.2.1 hf with hmid | hmem
      · rcases hst.2.1 hmid with h0 | he
        · exact Or.inl h0
        · subst he
          exact Or.inr (List.mem_cons_self _ _)
      · exact Or.inr (List.mem_cons_of_mem _ hmem)
    · intro hf
      rcases ih.2.2.1 hf with hmid | hmem
      · rcases hst.2.2.1 hmid with h0 | he
        · exact Or.inl h0
        · subst he
          exact Or.inr (List.mem_cons_self _ _)
      · exact Or.inr (List.mem_cons_of_mem _ hmem)
    · intro hf
      rcases ih.2.2.2 hf with hmid | hmem
      · rcases hst.2.2.2 hmid with h0 | he
        · exact Or.inl h0
        · subst he
          exact Or.inr (List.mem_cons_self _ _)
      · exact Or.inr (List.mem_cons_of_mem _ hmem)

/-- C5: in the limiter variant, the per-item admission sequence is
ordered — before the slot acquisition for item `i` its limiter token was
acquired, before its spawn its slot was acquired, before its `Result`
delivery it was spawned, and before its slot release its `Result` was
delivered. -/
theorem admission_order (N C R : Nat) (es : List Ev) (s : DState)
    (hrun : DRun true N C R (initDriver R) es s) (i : Nat) (es1 es2 : List Ev) :
    (es = es1 ++ Ev.slot i :: es2 → Ev.tok i ∈ es1) ∧
    (es = es1 ++ Ev.spawn i :: es2 → Ev.slot i ∈ es1) ∧
    (es = es1 ++ Ev.send i :: es2 → Ev.spawn i ∈ es1) ∧
    (es = es1 ++ Ev.release i :: es2 → Ev.send i ∈ es1) := by
  refine ⟨?_, ?_, ?_, ?_⟩ <;> intro heq <;> subst heq <;>
    obtain ⟨s1, s2, hrun1, hstep, hrun2⟩ := drun_split hrun
  · cases hstep with
    | slot h1 h2 h3 =>
      have hflag : tokTaken s1 s1.enq := Or.inr ⟨rfl, by simp [h2]⟩
      rcases (drun_history hrun1 s1.enq).1 hflag with h0 | hmem
      · rcases h0 with hlt | ⟨-, habs⟩
        · simp [initDriver] at hlt
        · exact absurd rfl habs
      · exact hmem
  · cases hstep with
    | spawn h1 h2 =>
      have hflag : slotTaken s1 s1.enq := Or.inr ⟨rfl, h2⟩
      rcases (drun_history hrun1 s1.enq).2.1 hflag with h0 | hmem
      · rcases h0 with hlt | ⟨-, habs⟩
        · simp [initDriver] at hlt
        · simp [initDriver] at habs
      · exact hmem
  · cases hstep
    rename_i hrun0
    · have hinv : DInv N C s1 := dreach_inv ⟨es1, hrun1⟩
      have hlt : i < s1.enq := by
        by_contra hge
        rw [hinv.not_spawned i (by omega)] at hrun0
        exact absurd hrun0 (by simp)
      rcases (drun_history hrun1 i).2.2.1 hlt with h0 | hmem
      · simp [initDriver] at h0
      · exact hmem
  · cases hstep
    rename_i hsr
    · have hflag : (s1.tstat i).isSent = true := by
        rw [hsr]
        rfl
      rcases (drun_history hrun1 i).2.2.2 hflag with h0 | hmem
      · rw [show (initDriver R).tstat i = .notSpawned from rfl] at h0
        exact absurd h0 (by decide)
      · exact hmem

/-- Witness for C5 on the concrete one-item run: the token acquisition
for item 0 precedes its slot acquisition. -/
theorem admission_order_witness : Ev.tok 0 ∈ [Ev.tok 0] :=
  (admission_order 1 1 1 demoEvents demoEndState demoRun 0 [Ev.tok 0]
    [Ev.spawn 0, Ev.loopDone, Ev.send 0, Ev.release 0, Ev.taskDone 0, Ev.closeCh]).1 rfl

/-! ## Configuration error handling (C6) -/

/-- Counterexample to C6 as stated: `"banana"` is an invalid integer
(`strconv.Atoi` errors on it), yet the `main.go` `init` path silently
adopts the default bound 1 instead of aborting — the configuration
error is not fatal in that variant. -/
theorem invalid_config_not_fatal_cex :
    atoiModel "banana" = .error "invalid syntax" ∧ initMaxConcurrent "banana" = 1 := by
  constructor <;> rfl

/-- C6 amended: a set, non-empty, non-integer environment value makes
`mustGetEnvInt` panic (the `.error` outcome) during package-variable
initialization — fatal before any item is dispatched — in the
`part_000` variant, while the `main.go` `init` silently ignores the
invalid value and runs the whole batch with the default bound 1. -/
theorem invalid_config_behavior (v e : String) (hv : v ≠ "")
    (h : atoiModel v = .error e) :
    (∀ fb, mustGetEnvIntModel (some v) fb = .error e) ∧ initMaxConcurrent v = 1 := by
  constructor
  · intro fb
    simp [mustGetEnvIntModel, getEnvIntModel, hv, h]
  · simp [initMaxConcurrent, hv, h]

/-- Witness for the amended C6 at the concrete invalid value. -/
theorem invalid_config_behavior_witness :
    (∀ fb, mustGetEnvIntModel (some "banana") fb = .error "invalid syntax") ∧
    initMaxConcurrent "banana" = 1 :=
  invalid_config_behavior "banana" "invalid syntax" (by decide) rfl

/-! ## Per-item failure isolation (C7) -/

/-- C7: a failing item's `Result` carries the failure detail — the
collector copies the error into the serialized `error` string, which is
non-empty only on failure since `processImage` itself never sets it —
while delivery of the other items and the completion signal are
unaffected: every closed reachable state has all `N` item indices
delivered. -/
theorem per_item_failure_isolated (useLim : Bool) (N C R : Nat) (s : DState)
    (hreach : DReachable useLim N C R s) (hclosed : s.closed = true) :
    s.delivered.length = N ∧ (∀ i, i < N → i ∈ s.delivered) ∧
    ∀ pfx path env, ∀ r ∈ processImage pfx path env,
      (∀ e, r.error = some e → (collectorOutput r).errorString = e) ∧
      (r.error = none → (collectorOutput r).errorString = "") := by
  have hd := closed_delivered_facts useLim N C R s hreach hclosed
  refine ⟨hd.1, fun i hi => (hd.2.2 i).mpr hi, ?_⟩
  intro pfx path env r hr
  have hfields := (processImage_fields pfx path env).2 r hr
  constructor
  · intro e he
    simp [collectorOutput, he]
  · intro hnone
    simp [collectorOutput, hnone, hfields.2]

/-- Witness for C7 on the concrete one-item run. -/
theorem per_item_failure_isolated_witness :
    demoEndState.delivered.length = 1 ∧ (∀ i, i < 1 → i ∈ demoEndState.delivered) ∧
    ∀ pfx path env, ∀ r ∈ processImage pfx path env,
      (∀ e, r.error = some e → (collectorOutput r).errorString = e) ∧
      (r.error = none → (collectorOutput r).errorString = "") :=
  per_item_failure_isolated true 1 1 1 demoEndState ⟨demoEvents, demoRun⟩ rfl

/-! ## Zero-item usage error (C8) -/

/-- C8: with no positional arguments `main` reports the usage message
and returns without starting the pipeline (the semaphore, WaitGroup,
results channel and every `limiter.Wait()` call live strictly after the
early return, inside the pipeline branch); with at least one item the
pipeline branch runs on exactly the positional arguments. -/
theorem zero_items_usage_error (prog : String) :
    mainEntry [prog] = .usageMessage ∧
    ∀ items, items ≠ [] → mainEntry (prog :: items) = .pipeline items := by
  constructor
  · simp [mainEntry]
  · intro items hne
    simp [mainEntry, hne]

/-- Witness for C8 at a concrete argument vector. -/
theorem zero_items_usage_error_witness :
    mainEntry ["image-categorizer"] = .usageMessage ∧
    mainEntry ["image-categorizer", "a.png"] = .pipeline ["a.png"] :=
  ⟨(zero_items_usage_error "image-categorizer").1,
   (zero_items_usage_error "image-categorizer").2 ["a.png"] (by decide)⟩

/-! ## getImage validation ladder (C9) -/

/-- C9: whenever the decoded image configuration reports a nil color
model, a zero dimension, or a dimension above 4096, `getImage` returns
an error (and no image), and a `getImage` error makes `processImage`
exit at once with only the source path and the error populated —
independently of every later oracle field, so no resize, external call
or save happens for that item. -/
theorem getImage_validation (env : GetImageEnv) (cfg : ImageConfig)
    (hopen : env.openFile = .ok ()) (hcfg : env.decodeConfig = .ok cfg)
    (hbad : cfg.colorModelNil = true ∨ cfg.width = 0 ∨ cfg.height = 0 ∨
      4096 < cfg.width ∨ 4096 < cfg.height) :
    (∃ e, getImageModel env = .error e) ∧
    ∀ pfx path penv e, penv.getImage = .error e →
      processImage pfx path penv = [errorOnlyResult path e] := by
  constructor
  · unfold getImageModel
    rw [hopen, hcfg]
    dsimp only
    split
    · exact ⟨_, rfl⟩
    · split
      · exact ⟨_, rfl⟩
      · split
        · exact ⟨_, rfl⟩
        · rename_i hc1 hc2 hc3
          exfalso
          simp only [Bool.or_eq_true, decide_eq_true_eq, not_or] at hc2 hc3
          rcases hbad with hb | hb | hb | hb | hb
          · exact hc1 hb
          · exact hc2.2 hb
          · exact hc2.1 hb
          · exact hc3.1 hb
          · exact hc3.2 hb
  · intro pfx path penv e he
    unfold processImage
    rw [he]
    rfl

/-- Witness for C9: a 5000-pixel-wide configuration is rejected, and a
concrete failing `getImage` oracle makes `processImage` emit exactly
the error-only record. -/
theorem getImage_validation_witness :
    (∃ e, getImageModel
      { openFile := .ok (), decodeConfig := .ok ⟨false, 5000, 10⟩,
        configModel := "png", gifDecodeAll := .error "not a gif",
        stillImg := .ok ⟨false⟩, stillModel := "png" } = .error e) ∧
    processImage "strim" "p9.png"
      { getImage := .error "boom", encodeGIForiginal := .ok [], encodeGIF28 := .ok [],
        encodePNGoriginal := .ok [], encodePNG28 := .ok [], chat := .ok {},
        unmarshal := .ok {}, saveFile := fun _ => .ok (), saveResult := .ok () }
      = [errorOnlyResult "p9.png" "boom"] := by
  have h := getImage_validation
    { openFile := .ok (), decodeConfig := .ok ⟨false, 5000, 10⟩,
      configModel := "png", gifDecodeAll := .error "not a gif",
      stillImg := .ok ⟨false⟩, stillModel := "png" }
    ⟨false, 5000, 10⟩ rfl rfl (Or.inr (Or.inr (Or.inr (Or.inl (by decide)))))
  exact ⟨h.1, h.2 "strim" "p9.png" _ "boom" rfl⟩

/-! ## Data URI and file extension agreement (C10) -/

/-- The GIF sniff in `imgBytesToDataURI` holds exactly of byte slices
longer than 3 that begin with the GIF magic bytes. -/
theorem isGIFMagicURI_iff (b : List Nat) :
    isGIFMagicURI b = true ↔ 3 < b.length ∧ b.take 3 = [0x47, 0x49, 0x46] := by
  cases b with
  | nil => simp [isGIFMagicURI]
  | cons a0 t0 =>
    cases t0 with
    | nil => simp [isGIFMagicURI]
    | cons a1 t1 =>
      cases t1 with
      | nil => simp [isGIFMagicURI]
      | cons a2 t2 =>
        simp only [isGIFMagicURI, List.getD_cons_zero, List.getD_cons_succ,
          List.take, List.length_cons, Bool.and_eq_true, decide_eq_true_eq, beq_iff_eq,
          List.cons.injEq, and_true]
        constructor
        · rintro ⟨⟨⟨hl, h0⟩, h1⟩, h2⟩
          exact ⟨hl, h0, h1, h2⟩
        · rintro ⟨hl, h0, h1, h2⟩
          exact ⟨⟨⟨hl, h0⟩, h1⟩, h2⟩

/-- The two media-type prefixes differ, so no string carries both. -/
theorem gifpng_ne (r1 r2 : String) :
    "data:image/gif;base64," ++ r1 ≠ "data:image/png;base64," ++ r2 := by
  intro h
  have hd := congrArg String.data h
  rw [String.data_append, String.data_append] at hd
  have hlen : ("data:image/gif;base64," : String).data.length
      = ("data:image/png;base64," : String).data.length := by decide
  have hpre := (List.append_inj hd hlen).1
  exact absurd hpre (by decide)

/-- C10: `imgBytesToDataURI b` begins with `data:image/gif;base64,`
exactly when `b` is longer than 3 bytes and starts with `0x47 0x49
0x46`, and with `data:image/png;base64,` otherwise; the file extension
chosen by the save loop is decided by the same (syntactically repeated)
test on the same bytes. -/
theorem dataURI_extension_agreement (b : List Nat) :
    ((∃ rest, imgBytesToDataURI b = "data:image/gif;base64," ++ rest) ↔
      3 < b.length ∧ b.take 3 = [0x47, 0x49, 0x46]) ∧
    ((∃ rest, imgBytesToDataURI b = "data:image/png;base64," ++ rest) ↔
      ¬(3 < b.length ∧ b.take 3 = [0x47, 0x49, 0x46])) ∧
    (fileExtensionChoice b = "gif" ↔ 3 < b.length ∧ b.take 3 = [0x47, 0x49, 0x46]) ∧
    (fileExtensionChoice b = "png" ↔ ¬(3 < b.length ∧ b.take 3 = [0x47, 0x49, 0x46])) ∧
    isGIFMagicSave b = isGIFMagicURI b := by
  have hiff := isGIFMagicURI_iff b
  have hsame : isGIFMagicSave b = isGIFMagicURI b := rfl
  by_cases hg : isGIFMagicURI b = true
  · have hcond := hiff.mp hg
    have hext : fileExtensionChoice b = "gif" := by
      simp [fileExtensionChoice, hsame, hg]
    refine ⟨?_, ?_, ?_, ?_, hsame⟩
    · exact ⟨fun _ => hcond,
        fun _ => ⟨base64Encode b, by simp [imgBytesToDataURI, hg]⟩⟩
    · constructor
      · rintro ⟨rest, hr⟩
        simp only [imgBytesToDataURI, hg, if_true] at hr
        exact absurd hr (gifpng_ne _ _)
      · intro hnc
        exact absurd hcond hnc
    · rw [hext]
      exact ⟨fun _ => hcond, fun _ => rfl⟩
    · rw [hext]
      exact ⟨fun hgp => absurd hgp (by decide), fun hn => absurd hcond hn⟩
  · have hg' : isGIFMagicURI b = false := by
      cases hb : isGIFMagicURI b
      · rfl
      · exact absurd hb hg
    have hcond : ¬(3 < b.length ∧ b.take 3 = [0x47, 0x49, 0x46]) :=
      fun hc => hg (hiff.mpr hc)
    have hext : fileExtensionChoice b = "png" := by
      simp [fileExtensionChoice, hsame, hg']
    refine ⟨?_, ?_, ?_, ?_, hsame⟩
    · constructor
      · rintro ⟨rest, hr⟩
        simp only [imgBytesToDataURI, hg', if_false] at hr
        exact absurd hr.symm (gifpng_ne _ _)
      · intro hc
        exact absurd hc hcond
    · exact ⟨fun _ => hcond,
        fun _ => ⟨base64Encode b, by simp [imgBytesToDataURI, hg']⟩⟩
    · rw [hext]
      exact ⟨fun hgp => absurd hgp (by decide), fun hc => absurd hc hcond⟩
    · rw [hext]
      exact ⟨fun _ => hcond, fun _ => rfl⟩

/-- Witness for C10 at a concrete GIF-magic byte slice. -/
theorem dataURI_extension_agreement_witness :
    fileExtensionChoice [0x47, 0x49, 0x46, 0x38] = "gif" :=
  (dataURI_extension_agreement [0x47, 0x49, 0x46, 0x38]).2.2.1.mpr
    ⟨by decide, by decide⟩

end ImageCategorizer
